import Mathlib

/-!
Shallow embedding of a Brainfuck interpreter (Rust, `src/main.rs`).

The program has two stages:
* `parse_code` — a single-pass translator from source text to a list of
  instructions, resolving bracket jump targets with an auxiliary stack;
* `execute_code` — a fetch/dispatch loop over the instruction list against a
  fixed tape of `TAPE_SIZE` bytes and a cursor (`pointer`).

Machine integers are modelled as `Nat` with explicit `% 256` where the Rust
code performs `u8` wrapping arithmetic.  Rust panics (from `expect`, `unwrap`
and out-of-bounds indexing) are modelled as explicit `panicked` outcomes;
the `Result::Err` channel of `parse_code` (declared in the Rust signature but
never used) is a separate `err` outcome, so that a panic and a returned error
are distinguishable, as they are for the Rust caller.  Console output
(`print!` / `println!`) is modelled as a list of characters accumulated in
the execution state.  The executor's unbounded `loop` is modelled with
explicit fuel; running out of fuel is the distinct outcome `outOfFuel`.
-/

/-- `const TAPE_SIZE: usize = 30000;` -/
def TAPE_SIZE : Nat := 30000

/-- The Rust `enum Instruction`.  `Begin` carries "where to jump if zero"
(`Option<usize>`), `End` carries "where to jump if not zero" (`usize`),
`Halt` is appended at the end of the buffer by the caller of `parse_code`. -/
inductive Instruction where
  | IncrementPointer : Instruction
  | DecrementPointer : Instruction
  | IncrementValue : Instruction
  | DecrementValue : Instruction
  | OutputValue : Instruction
  | InputValue : Instruction
  | Begin : Option Nat → Instruction
  | End : Nat → Instruction
  | Halt : Instruction
deriving DecidableEq, Repr

/-- The eight recognized instruction characters, the characters of the Rust
filter string `"><+-.,[]"`. -/
def instrChars : List Char := ['>', '<', '+', '-', '.', ',', '[', ']']

/-- The filter predicate of `parse_code`: `"><+-.,[]".contains(*c)`. -/
def isInstrChar (c : Char) : Bool := instrChars.contains c

/-- Outcome of `parse_code`.  The Rust function is declared as
`Result<Vec<Instruction>, &'static str>`; `ok`/`err` are its two return
channels and `panicked` models a Rust panic (`expect`), which does not
return to the caller at all. -/
inductive ParseResult where
  | ok : List Instruction → ParseResult
  | err : String → ParseResult
  | panicked : String → ParseResult
deriving DecidableEq, Repr

/-- The message of `stack.pop().expect("Unmatched `]`, missing `[`")`. -/
def unmatchedEndMsg : String := "Unmatched `]`, missing `[`"

/-- The loop body of `parse_code`, iterated over the filtered character
stream.  `idx` is the `enumerate` index of the current character within the
filtered stream, `instrs` is `parsed_instructions` and `stack` the bracket
stack (`Vec` push/pop at the back, modelled as list cons/head).  On `']'`
with an empty stack the Rust code panics via `expect`; otherwise it rewrites
the matching `Begin` in place (`parsed_instructions[previous_begin_index] =
Begin(Some(index + 1))`, always in bounds because stack entries are indices
of already-emitted instructions) and appends `End(previous_begin_index + 1)`.
At end of input the accumulated instructions are returned as `Ok` — the
stack is not examined. -/
def parseLoop : List Char → Nat → List Instruction → List Nat → ParseResult
  | [], _, instrs, _ => .ok instrs
  | c :: cs, idx, instrs, stack =>
    if c = '>' then parseLoop cs (idx + 1) (instrs ++ [.IncrementPointer]) stack
    else if c = '<' then parseLoop cs (idx + 1) (instrs ++ [.DecrementPointer]) stack
    else if c = '+' then parseLoop cs (idx + 1) (instrs ++ [.IncrementValue]) stack
    else if c = '-' then parseLoop cs (idx + 1) (instrs ++ [.DecrementValue]) stack
    else if c = '.' then parseLoop cs (idx + 1) (instrs ++ [.OutputValue]) stack
    else if c = ',' then parseLoop cs (idx + 1) (instrs ++ [.InputValue]) stack
    else if c = '[' then
      parseLoop cs (idx + 1) (instrs ++ [.Begin none]) (idx :: stack)
    else if c = ']' then
      match stack with
      | [] => .panicked unmatchedEndMsg
      | b :: rest =>
        parseLoop cs (idx + 1)
          ((instrs.set b (.Begin (some (idx + 1)))) ++ [.End (b + 1)]) rest
    else parseLoop cs (idx + 1) instrs stack

/-- `fn parse_code(code: &String) -> Result<Vec<Instruction>, &'static str>`:
filter the source characters to the eight instruction characters, then run
the translation loop with empty instruction list and empty bracket stack. -/
def parse_code (code : String) : ParseResult :=
  parseLoop (code.toList.filter isInstrChar) 0 [] []

/-- Canonical bracket-matching scan over a character stream: the same stack
discipline as `parseLoop`, but recording only the matched `(open, close)`
index pairs.  Returns `none` when a `']'` is met with an empty stack, and
otherwise the collected pairs together with the indices of the brackets
still open at end of input. -/
def matchScan : List Char → Nat → List Nat → List (Nat × Nat) →
    Option (List (Nat × Nat) × List Nat)
  | [], _, stack, pairs => some (pairs, stack)
  | c :: cs, idx, stack, pairs =>
    if c = '[' then matchScan cs (idx + 1) (idx :: stack) pairs
    else if c = ']' then
      match stack with
      | [] => none
      | b :: rest => matchScan cs (idx + 1) rest ((b, idx) :: pairs)
    else matchScan cs (idx + 1) stack pairs

/-- Result of the bracket scan started from the empty stack. -/
def bracketScan (l : List Char) : Option (List (Nat × Nat) × List Nat) :=
  matchScan l 0 [] []

/-- A character stream has only balanced bracket pairs: the scan never pops
an empty stack and no bracket is left open at end of input. -/
def BalancedB (l : List Char) : Bool :=
  match bracketScan l with
  | some (_, []) => true
  | _ => false

/-- The matched bracket pairs of a stream (positions in the stream), as
collected by the canonical scan. -/
def matchedPairs (l : List Char) : List (Nat × Nat) :=
  match bracketScan l with
  | some (pairs, _) => pairs
  | none => []

/-- Whether a parse produced `Ok`. -/
def ParseResult.isOk : ParseResult → Bool
  | .ok _ => true
  | _ => false

/-- Whether a parse returned through the `Err` channel of the declared
`Result` type. -/
def ParseResult.isErrResult : ParseResult → Bool
  | .err _ => true
  | _ => false

/-- The instruction list of an `Ok` parse (junk `[]` otherwise). -/
def ParseResult.instrs : ParseResult → List Instruction
  | .ok l => l
  | _ => []

/-- `main`'s use of the translation: on `Ok` it appends exactly one `Halt`
instruction and runs the result; on `Err` it prints the message and exits
(and a panic would abort the process), modelled as `none`. -/
def compiled_program (code : String) : Option (List Instruction) :=
  match parse_code code with
  | .ok instrs => some (instrs ++ [.Halt])
  | _ => none

/-- The Rust `struct Intepreter` (sic): the fixed tape of `TAPE_SIZE` bytes,
modelled as a total function on indices (only indices `< TAPE_SIZE` are ever
read or written, behind explicit bounds checks / panics), and the cursor. -/
structure Intepreter where
  buffer : Nat → Nat
  pointer : Nat

/-- `impl Default for Intepreter`: all-zero tape, cursor at `TAPE_SIZE / 2`. -/
def Intepreter.default : Intepreter :=
  { buffer := fun _ => 0, pointer := TAPE_SIZE / 2 }

/-- Write one byte into the tape function. -/
def writeBuf (f : Nat → Nat) (i v : Nat) : Nat → Nat :=
  fun j => if j = i then v else f j

/-- `println!` output: the message followed by a newline, appended to the
console stream. -/
def printlnStr (s : String) : List Char := s.toList ++ ['\n']

/-- Message of `println!("Pointer out of bounds, overflow")`. -/
def overflowMsg : String := "Pointer out of bounds, overflow"

/-- Message of `println!("Pointer out of bounds, underflow")`. -/
def underflowMsg : String := "Pointer out of bounds, underflow"

/-- Message of `read_exact(..).expect("Input error")`. -/
def inputErrMsg : String := "Input error"

/-- Panic message of `Option::unwrap` (for `parsed_code.get(i).unwrap()` with
`i` out of range and for `jump_address.unwrap()` on `None`). -/
def unwrapMsg : String := "called `Option::unwrap()` on a `None` value"

/-- Panic message of an out-of-bounds slice index `buffer[pointer]`. -/
def indexOOBMsg : String := "index out of bounds"

/-- Outcome of `execute_code`.  The Rust function returns `()` both on the
`Halt` break and on the early `return`s after printing a bounds message —
`returned` covers all of these, carrying the final interpreter state (the
caller holds `&mut Intepreter`), the unconsumed input and the console
output.  `panicked` models a Rust panic (process abort).  `outOfFuel` is the
artefact of bounding the unbounded Rust `loop` with fuel. -/
inductive ExecRes where
  | returned : Intepreter → List Nat → List Char → ExecRes
  | panicked : String → List Nat → List Char → ExecRes
  | outOfFuel : Nat → Intepreter → List Nat → List Char → ExecRes

/-- The fetch/dispatch loop of `execute_code`, with explicit fuel.
State: `pc` is `instruction_index`, `it` the interpreter, `input` the byte
input stream backing `std::io::stdin().read_exact` (each byte stored is a
`u8`, hence `% 256`), `console` the stdout stream (`print!`/`println!`).
Each arm mirrors the Rust `match` arm, including the order of the effects
and checks:
* fetch is `parsed_code.get(instruction_index).unwrap()` — a panic when the
  program counter is out of range;
* `IncrementPointer` checks `pointer >= TAPE_SIZE` before incrementing,
  `DecrementPointer` checks `pointer <= 0` before decrementing; both print
  and `return` on failure;
* the value instructions index `buffer[pointer]` (bounds panic) and wrap:
  `wrapping_add(1)` is `(v + 1) % 256`, `wrapping_sub(1)` is
  `(v + 255) % 256` for a byte `v`;
* `InputValue` first reads one byte (panicking with "Input error" when the
  stream is exhausted), stores it at the cursor, and does not advance
  `instruction_index`;
* `OutputValue` prints `buffer[pointer] as char`;
* `Begin` reads the cell, and on zero jumps to `jump_address.unwrap()`
  (panic on `None`); `End` jumps on nonzero;
* `Halt` breaks the loop. -/
def execLoop (instrs : List Instruction) :
    Nat → Nat → Intepreter → List Nat → List Char → ExecRes
  | 0, pc, it, input, console => .outOfFuel pc it input console
  | fuel + 1, pc, it, input, console =>
    match instrs.get? pc with
    | none => .panicked unwrapMsg input console
    | some op =>
      match op with
      | .IncrementPointer =>
        if TAPE_SIZE ≤ it.pointer then
          .returned it input (console ++ printlnStr overflowMsg)
        else
          execLoop instrs fuel (pc + 1) { it with pointer := it.pointer + 1 }
            input console
      | .DecrementPointer =>
        if it.pointer ≤ 0 then
          .returned it input (console ++ printlnStr underflowMsg)
        else
          execLoop instrs fuel (pc + 1) { it with pointer := it.pointer - 1 }
            input console
      | .IncrementValue =>
        if it.pointer < TAPE_SIZE then
          execLoop instrs fuel (pc + 1)
            { it with buffer :=
                writeBuf it.buffer it.pointer ((it.buffer it.pointer + 1) % 256) }
            input console
        else .panicked indexOOBMsg input console
      | .DecrementValue =>
        if it.pointer < TAPE_SIZE then
          execLoop instrs fuel (pc + 1)
            { it with buffer :=
                writeBuf it.buffer it.pointer ((it.buffer it.pointer + 255) % 256) }
            input console
        else .panicked indexOOBMsg input console
      | .InputValue =>
        match input with
        | [] => .panicked inputErrMsg input console
        | b :: rest =>
          if it.pointer < TAPE_SIZE then
            execLoop instrs fuel pc
              { it with buffer := writeBuf it.buffer it.pointer (b % 256) }
              rest console
          else .panicked indexOOBMsg rest console
      | .OutputValue =>
        if it.pointer < TAPE_SIZE then
          execLoop instrs fuel (pc + 1) it input
            (console ++ [Char.ofNat (it.buffer it.pointer)])
        else .panicked indexOOBMsg input console
      | .Begin jumpAddress =>
        if it.pointer < TAPE_SIZE then
          if it.buffer it.pointer = 0 then
            match jumpAddress with
            | none => .panicked unwrapMsg input console
            | some j => execLoop instrs fuel j it input console
          else execLoop instrs fuel (pc + 1) it input console
        else .panicked indexOOBMsg input console
      | .End jumpAddress =>
        if it.pointer < TAPE_SIZE then
          if it.buffer it.pointer ≠ 0 then
            execLoop instrs fuel jumpAddress it input console
          else execLoop instrs fuel (pc + 1) it input console
        else .panicked indexOOBMsg input console
      | .Halt => .returned it input console

/-- `execute_code` started as `main` starts it: program counter `0`, fresh
console. -/
def execute_code (instrs : List Instruction) (it : Intepreter)
    (input : List Nat) (fuel : Nat) : ExecRes :=
  execLoop instrs fuel 0 it input []

/-- `main`'s full pipeline on a source text: translate, append `Halt`, run
on a default interpreter state... here parametrised by interpreter and
input so that scenarios can be stated; `none` when translation does not
return `Ok`. -/
def runProgram (code : String) (it : Intepreter) (input : List Nat)
    (fuel : Nat) : Option ExecRes :=
  (compiled_program code).map (fun prog => execute_code prog it input fuel)

/-- Whether the executor returned normally (Halt break or printed-error
return): the caller of `execute_code` observes `()` in exactly these cases. -/
def ExecRes.isReturned : ExecRes → Bool
  | .returned _ _ _ => true
  | _ => false

/-- The console output of an execution outcome. -/
def ExecRes.console : ExecRes → List Char
  | .returned _ _ c => c
  | .panicked _ _ c => c
  | .outOfFuel _ _ _ c => c

/-- The panic message, if the execution panicked. -/
def ExecRes.panicMsg : ExecRes → Option String
  | .panicked m _ _ => some m
  | _ => none

/-- The cell at index `i` of the final tape, when the executor returned. -/
def ExecRes.cellAt (i : Nat) : ExecRes → Option Nat
  | .returned it _ _ => some (it.buffer i)
  | _ => none

/-- The final cursor, when the executor returned. -/
def ExecRes.pointerAfter : ExecRes → Option Nat
  | .returned it _ _ => some it.pointer
  | _ => none

/-- Interleave "noise" blocks (comment characters) before the characters of
a source stream, with any leftover blocks appended at the end: a generic way
of inserting arbitrary characters at arbitrary positions. -/
def insertNoise : List (List Char) → List Char → List Char
  | [], cs => cs
  | n :: ns, [] => (n :: ns).join
  | n :: ns, c :: cs => n ++ (c :: insertNoise ns cs)

/-! ### The translation invariant

`ParseInv k instrs stack pairs` relates the parser state after `k` filtered
characters (the emitted instructions `instrs` and the bracket stack `stack`)
to the bracket-matching state (the open positions are exactly `stack`, the
pairs matched so far are `pairs`). -/

structure ParseInv (k : Nat) (instrs : List Instruction) (stack : List Nat)
    (pairs : List (Nat × Nat)) : Prop where
  len_eq : instrs.length = k
  stack_lt : ∀ s ∈ stack, s < k
  stack_pw : stack.Pairwise (fun a b => b < a)
  stack_begin : ∀ s ∈ stack, instrs.get? s = some (.Begin none)
  disj : ∀ s ∈ stack, ∀ p ∈ pairs, s ≠ p.1 ∧ s ≠ p.2
  pairs_lt : ∀ p ∈ pairs, p.1 < p.2 ∧ p.2 < k
  pairs_begin : ∀ p ∈ pairs, instrs.get? p.1 = some (.Begin (some (p.2 + 1)))
  pairs_end : ∀ p ∈ pairs, instrs.get? p.2 = some (.End (p.1 + 1))
  begin_inv : ∀ i t, instrs.get? i = some (.Begin t) →
      (i ∈ stack ∧ t = none) ∨ ∃ j, (i, j) ∈ pairs ∧ t = some (j + 1)

/-- An all-zero tape with the cursor at a chosen index, for concrete runs. -/
def zeroTapeAt (p : Nat) : Intepreter := { buffer := fun _ => 0, pointer := p }

/-- An all-255 tape with the cursor at a chosen index, for concrete runs. -/
def fullTapeAt (p : Nat) : Intepreter :=
  { buffer := fun _ => 255, pointer := p }

/-! ### Step equations for the translation loop and the bracket scan -/

theorem parseLoop_gt (cs : List Char) (k : Nat) (instrs : List Instruction)
    (stack : List Nat) :
    parseLoop ('>' :: cs) k instrs stack =
      parseLoop cs (k + 1) (instrs ++ [.IncrementPointer]) stack := rfl

theorem parseLoop_lt (cs : List Char) (k : Nat) (instrs : List Instruction)
    (stack : List Nat) :
    parseLoop ('<' :: cs) k instrs stack =
      parseLoop cs (k + 1) (instrs ++ [.DecrementPointer]) stack := rfl

theorem parseLoop_plus (cs : List Char) (k : Nat) (instrs : List Instruction)
    (stack : List Nat) :
    parseLoop ('+' :: cs) k instrs stack =
      parseLoop cs (k + 1) (instrs ++ [.IncrementValue]) stack := rfl

theorem parseLoop_minus (cs : List Char) (k : Nat) (instrs : List Instruction)
    (stack : List Nat) :
    parseLoop ('-' :: cs) k instrs stack =
      parseLoop cs (k + 1) (instrs ++ [.DecrementValue]) stack := rfl

theorem parseLoop_dot (cs : List Char) (k : Nat) (instrs : List Instruction)
    (stack : List Nat) :
    parseLoop ('.' :: cs) k instrs stack =
      parseLoop cs (k + 1) (instrs ++ [.OutputValue]) stack := rfl

theorem parseLoop_comma (cs : List Char) (k : Nat) (instrs : List Instruction)
    (stack : List Nat) :
    parseLoop (',' :: cs) k instrs stack =
      parseLoop cs (k + 1) (instrs ++ [.InputValue]) stack := rfl

theorem parseLoop_open (cs : List Char) (k : Nat) (instrs : List Instruction)
    (stack : List Nat) :
    parseLoop ('[' :: cs) k instrs stack =
      parseLoop cs (k + 1) (instrs ++ [.Begin none]) (k :: stack) := rfl

theorem parseLoop_close_nil (cs : List Char) (k : Nat)
    (instrs : List Instruction) :
    parseLoop (']' :: cs) k instrs [] = .panicked unmatchedEndMsg := rfl

theorem parseLoop_close_cons (cs : List Char) (k : Nat)
    (instrs : List Instruction) (b : Nat) (rest : List Nat) :
    parseLoop (']' :: cs) k instrs (b :: rest) =
      parseLoop cs (k + 1)
        ((instrs.set b (.Begin (some (k + 1)))) ++ [.End (b + 1)]) rest := rfl

theorem matchScan_gt (cs : List Char) (k : Nat) (stack : List Nat)
    (pairs : List (Nat × Nat)) :
    matchScan ('>' :: cs) k stack pairs = matchScan cs (k + 1) stack pairs := rfl

theorem matchScan_lt (cs : List Char) (k : Nat) (stack : List Nat)
    (pairs : List (Nat × Nat)) :
    matchScan ('<' :: cs) k stack pairs = matchScan cs (k + 1) stack pairs := rfl

theorem matchScan_plus (cs : List Char) (k : Nat) (stack : List Nat)
    (pairs : List (Nat × Nat)) :
    matchScan ('+' :: cs) k stack pairs = matchScan cs (k + 1) stack pairs := rfl

theorem matchScan_minus (cs : List Char) (k : Nat) (stack : List Nat)
    (pairs : List (Nat × Nat)) :
    matchScan ('-' :: cs) k stack pairs = matchScan cs (k + 1) stack pairs := rfl

theorem matchScan_dot (cs : List Char) (k : Nat) (stack : List Nat)
    (pairs : List (Nat × Nat)) :
    matchScan ('.' :: cs) k stack pairs = matchScan cs (k + 1) stack pairs := rfl

theorem matchScan_comma (cs : List Char) (k : Nat) (stack : List Nat)
    (pairs : List (Nat × Nat)) :
    matchScan (',' :: cs) k stack pairs = matchScan cs (k + 1) stack pairs := rfl

theorem matchScan_open (cs : List Char) (k : Nat) (stack : List Nat)
    (pairs : List (Nat × Nat)) :
    matchScan ('[' :: cs) k stack pairs =
      matchScan cs (k + 1) (k :: stack) pairs := rfl

theorem matchScan_close_nil (cs : List Char) (k : Nat)
    (pairs : List (Nat × Nat)) :
    matchScan (']' :: cs) k [] pairs = none := rfl

theorem matchScan_close_cons (cs : List Char) (k : Nat) (b : Nat)
    (rest : List Nat) (pairs : List (Nat × Nat)) :
    matchScan (']' :: cs) k (b :: rest) pairs =
      matchScan cs (k + 1) rest ((b, k) :: pairs) := rfl

theorem isInstrChar_cases {c : Char} (h : isInstrChar c = true) :
    c = '>' ∨ c = '<' ∨ c = '+' ∨ c = '-' ∨ c = '.' ∨ c = ',' ∨
      c = '[' ∨ c = ']' := by
  have hm : c ∈ instrChars := by
    simpa [isInstrChar] using h
  simpa [instrChars] using hm

theorem ParseInv.init : ParseInv 0 [] [] [] := by
  refine ⟨rfl, ?_, ?_, ?_, ?_, ?_, ?_, ?_, ?_⟩ <;> simp

theorem ParseInv.pushSimple {k : Nat} {instrs : List Instruction}
    {stack : List Nat} {pairs : List (Nat × Nat)}
    (h : ParseInv k instrs stack pairs) (ins : Instruction)
    (hins : ∀ t, ins ≠ .Begin t) :
    ParseInv (k + 1) (instrs ++ [ins]) stack pairs := by
  obtain ⟨len_eq, stack_lt, stack_pw, stack_begin, disj, pairs_lt,
    pairs_begin, pairs_end, begin_inv⟩ := h
  refine ⟨by simp [len_eq], ?_, stack_pw, ?_, disj, ?_, ?_, ?_, ?_⟩
  · exact fun s hs => Nat.lt_succ_of_lt (stack_lt s hs)
  · intro s hs
    rw [List.get?_append (show s < instrs.length by
      have := stack_lt s hs; omega)]
    exact stack_begin s hs
  · exact fun p hp => ⟨(pairs_lt p hp).1, Nat.lt_succ_of_lt (pairs_lt p hp).2⟩
  · intro p hp
    rw [List.get?_append (show p.1 < instrs.length by
      have := pairs_lt p hp; omega)]
    exact pairs_begin p hp
  · intro p hp
    rw [List.get?_append (show p.2 < instrs.length by
      have := pairs_lt p hp; omega)]
    exact pairs_end p hp
  · intro i t hget
    rcases Nat.lt_trichotomy i instrs.length with hlt | heq | hgt
    · rw [List.get?_append hlt] at hget
      exact (begin_inv i t hget).imp id id
    · subst heq
      rw [List.get?_concat_length] at hget
      exact absurd (Option.some.inj hget) (hins t)
    · have hnone : (instrs ++ [ins]).get? i = none := by
        rw [List.get?_eq_none]
        simp only [List.length_append, List.length_cons, List.length_nil]
        omega
      rw [hnone] at hget
      cases hget

theorem ParseInv.pushBegin {k : Nat} {instrs : List Instruction}
    {stack : List Nat} {pairs : List (Nat × Nat)}
    (h : ParseInv k instrs stack pairs) :
    ParseInv (k + 1) (instrs ++ [.Begin none]) (k :: stack) pairs := by
  obtain ⟨len_eq, stack_lt, stack_pw, stack_begin, disj, pairs_lt,
    pairs_begin, pairs_end, begin_inv⟩ := h
  refine ⟨by simp [len_eq], ?_, ?_, ?_, ?_, ?_, ?_, ?_, ?_⟩
  · intro s hs
    rcases List.mem_cons.1 hs with rfl | hs
    · omega
    · exact Nat.lt_succ_of_lt (stack_lt s hs)
  · exact List.Pairwise.cons (fun s hs => stack_lt s hs) stack_pw
  · intro s hs
    rcases List.mem_cons.1 hs with rfl | hs
    · rw [← len_eq]
      exact List.get?_concat_length _ _
    · rw [List.get?_append (show s < instrs.length by
        have := stack_lt s hs; omega)]
      exact stack_begin s hs
  · intro s hs p hp
    rcases List.mem_cons.1 hs with rfl | hs
    · have := pairs_lt p hp
      exact ⟨by omega, by omega⟩
    · exact disj s hs p hp
  · exact fun p hp => ⟨(pairs_lt p hp).1, Nat.lt_succ_of_lt (pairs_lt p hp).2⟩
  · intro p hp
    rw [List.get?_append (show p.1 < instrs.length by
      have := pairs_lt p hp; omega)]
    exact pairs_begin p hp
  · intro p hp
    rw [List.get?_append (show p.2 < instrs.length by
      have := pairs_lt p hp; omega)]
    exact pairs_end p hp
  · intro i t hget
    rcases Nat.lt_trichotomy i instrs.length with hlt | heq | hgt
    · rw [List.get?_append hlt] at hget
      rcases begin_inv i t hget with ⟨hmem, ht⟩ | ⟨j, hj, ht⟩
      · exact Or.inl ⟨List.mem_cons_of_mem _ hmem, ht⟩
      · exact Or.inr ⟨j, hj, ht⟩
    · subst heq
      rw [List.get?_concat_length] at hget
      have h2 := Option.some.inj hget
      have ht : t = none := by
        cases h2
        rfl
      refine Or.inl ⟨?_, ht⟩
      rw [len_eq]
      exact List.mem_cons_self _ _
    · have hnone : (instrs ++ [Instruction.Begin none]).get? i = none := by
        rw [List.get?_eq_none]
        simp only [List.length_append, List.length_cons, List.length_nil]
        omega
      rw [hnone] at hget
      cases hget

theorem ParseInv.closeBracket {k : Nat} {instrs : List Instruction}
    {b : Nat} {rest : List Nat} {pairs : List (Nat × Nat)}
    (h : ParseInv k instrs (b :: rest) pairs) :
    ParseInv (k + 1) ((instrs.set b (.Begin (some (k + 1)))) ++ [.End (b + 1)])
      rest ((b, k) :: pairs) := by
  obtain ⟨len_eq, stack_lt, stack_pw, stack_begin, disj, pairs_lt,
    pairs_begin, pairs_end, begin_inv⟩ := h
  have hbk : b < k := stack_lt b (List.mem_cons_self _ _)
  have hblen : b < instrs.length := by omega
  have hrest_lt : ∀ r ∈ rest, r < b := (List.pairwise_cons.1 stack_pw).1
  have hdisjb := disj b (List.mem_cons_self _ _)
  have hlen' : (instrs.set b (.Begin (some (k + 1)))).length = k := by
    simp [len_eq]
  refine ⟨by simp [hlen'], ?_, (List.pairwise_cons.1 stack_pw).2,
    ?_, ?_, ?_, ?_, ?_, ?_⟩
  · intro r hr
    have := hrest_lt r hr
    omega
  · intro r hr
    rw [List.get?_append (show r < (instrs.set b
        (Instruction.Begin (some (k + 1)))).length by
      rw [hlen']
      have := hrest_lt r hr
      omega)]
    rw [List.get?_set_ne _ _ (show b ≠ r by
      have := hrest_lt r hr; omega)]
    exact stack_begin r (List.mem_cons_of_mem _ hr)
  · intro r hr p hp
    rcases List.mem_cons.1 hp with rfl | hp
    · have := hrest_lt r hr
      exact ⟨by omega, by omega⟩
    · exact disj r (List.mem_cons_of_mem _ hr) p hp
  · intro p hp
    rcases List.mem_cons.1 hp with rfl | hp
    · exact ⟨hbk, by omega⟩
    · have := pairs_lt p hp
      exact ⟨this.1, by omega⟩
  · intro p hp
    rcases List.mem_cons.1 hp with rfl | hp
    · rw [List.get?_append (show b < (instrs.set b
          (Instruction.Begin (some (k + 1)))).length by rw [hlen']; exact hbk)]
      rw [List.get?_set_eq_of_lt _ hblen]
    · rw [List.get?_append (show p.1 < (instrs.set b
          (Instruction.Begin (some (k + 1)))).length by
        rw [hlen']
        have := pairs_lt p hp
        omega)]
      rw [List.get?_set_ne _ _ (hdisjb p hp).1]
      exact pairs_begin p hp
  · intro p hp
    rcases List.mem_cons.1 hp with rfl | hp
    · have hck : ((instrs.set b (Instruction.Begin (some (k + 1)))) ++
          [Instruction.End (b + 1)]).get?
          ((instrs.set b (Instruction.Begin (some (k + 1)))).length) =
          some (Instruction.End (b + 1)) := List.get?_concat_length _ _
      rw [hlen'] at hck
      exact hck
    · rw [List.get?_append (show p.2 < (instrs.set b
          (Instruction.Begin (some (k + 1)))).length by
        rw [hlen']
        have := pairs_lt p hp
        omega)]
      rw [List.get?_set_ne _ _ (hdisjb p hp).2]
      exact pairs_end p hp
  · intro i t hget
    rcases Nat.lt_trichotomy i instrs.length with hlt | heq | hgt
    · rw [List.get?_append (show i < (instrs.set b
          (Instruction.Begin (some (k + 1)))).length by
        rw [List.length_set]; exact hlt)] at hget
      by_cases hib : i = b
      · subst hib
        rw [List.get?_set_eq_of_lt _ hblen] at hget
        have h2 := Option.some.inj hget
        have ht : t = some (k + 1) := by
          cases h2
          rfl
        exact Or.inr ⟨k, List.mem_cons_self _ _, ht⟩
      · rw [List.get?_set_ne _ _ (Ne.symm hib)] at hget
        rcases begin_inv i t hget with ⟨hmem, ht⟩ | ⟨j, hj, ht⟩
        · rcases List.mem_cons.1 hmem with rfl | hmem
          · exact absurd rfl hib
          · exact Or.inl ⟨hmem, ht⟩
        · exact Or.inr ⟨j, List.mem_cons_of_mem _ hj, ht⟩
    · rw [show i = (instrs.set b
          (Instruction.Begin (some (k + 1)))).length by
        rw [List.length_set]; exact heq] at hget
      rw [List.get?_concat_length] at hget
      exact Instruction.noConfusion (Option.some.inj hget)
    · have hnone : ((instrs.set b (Instruction.Begin (some (k + 1)))) ++
          [Instruction.End (b + 1)]).get? i = none := by
        rw [List.get?_eq_none]
        simp only [List.length_append, List.length_set, List.length_cons,
          List.length_nil]
        omega
      rw [hnone] at hget
      cases hget

theorem parseLoop_matchScan : ∀ (cs : List Char) (k : Nat)
    (instrs : List Instruction) (stack : List Nat)
    (pairs : List (Nat × Nat)),
    (∀ c ∈ cs, isInstrChar c = true) →
    ParseInv k instrs stack pairs →
    (matchScan cs k stack pairs = none →
      parseLoop cs k instrs stack = .panicked unmatchedEndMsg) ∧
    (∀ pairs' stack', matchScan cs k stack pairs = some (pairs', stack') →
      ∃ instrs', parseLoop cs k instrs stack = .ok instrs' ∧
        ParseInv (k + cs.length) instrs' stack' pairs')
  | [], k, instrs, stack, pairs, _, hinv => by
    constructor
    · intro hn
      simp [matchScan] at hn
    · intro pairs' stack' hs
      simp only [matchScan, Option.some.injEq, Prod.mk.injEq] at hs
      obtain ⟨h1, h2⟩ := hs
      subst h1
      subst h2
      exact ⟨instrs, rfl, by simpa using hinv⟩
  | c :: cs, k, instrs, stack, pairs, hall, hinv => by
    have hc := hall c (List.mem_cons_self _ _)
    have hall' : ∀ x ∈ cs, isInstrChar x = true :=
      fun x hx => hall x (List.mem_cons_of_mem _ hx)
    rcases isInstrChar_cases hc with rfl | rfl | rfl | rfl | rfl | rfl | rfl | rfl
    · rw [parseLoop_gt, matchScan_gt,
        show k + ('>' :: cs).length = (k + 1) + cs.length by simp; omega]
      exact parseLoop_matchScan cs (k + 1) _ stack pairs hall'
        (hinv.pushSimple _ (fun t h => Instruction.noConfusion h))
    · rw [parseLoop_lt, matchScan_lt,
        show k + ('<' :: cs).length = (k + 1) + cs.length by simp; omega]
      exact parseLoop_matchScan cs (k + 1) _ stack pairs hall'
        (hinv.pushSimple _ (fun t h => Instruction.noConfusion h))
    · rw [parseLoop_plus, matchScan_plus,
        show k + ('+' :: cs).length = (k + 1) + cs.length by simp; omega]
      exact parseLoop_matchScan cs (k + 1) _ stack pairs hall'
        (hinv.pushSimple _ (fun t h => Instruction.noConfusion h))
    · rw [parseLoop_minus, matchScan_minus,
        show k + ('-' :: cs).length = (k + 1) + cs.length by simp; omega]
      exact parseLoop_matchScan cs (k + 1) _ stack pairs hall'
        (hinv.pushSimple _ (fun t h => Instruction.noConfusion h))
    · rw [parseLoop_dot, matchScan_dot,
        show k + ('.' :: cs).length = (k + 1) + cs.length by simp; omega]
      exact parseLoop_matchScan cs (k + 1) _ stack pairs hall'
        (hinv.pushSimple _ (fun t h => Instruction.noConfusion h))
    · rw [parseLoop_comma, matchScan_comma,
        show k + (',' :: cs).length = (k + 1) + cs.length by simp; omega]
      exact parseLoop_matchScan cs (k + 1) _ stack pairs hall'
        (hinv.pushSimple _ (fun t h => Instruction.noConfusion h))
    · rw [parseLoop_open, matchScan_open,
        show k + ('[' :: cs).length = (k + 1) + cs.length by simp; omega]
      exact parseLoop_matchScan cs (k + 1) _ (k :: stack) pairs hall'
        hinv.pushBegin
    · cases stack with
      | nil =>
        constructor
        · intro _
          exact parseLoop_close_nil cs k instrs
        · intro pairs' stack' hs
          rw [matchScan_close_nil] at hs
          cases hs
      | cons b rest =>
        rw [parseLoop_close_cons, matchScan_close_cons,
          show k + (']' :: cs).length = (k + 1) + cs.length by simp; omega]
        exact parseLoop_matchScan cs (k + 1) _ rest ((b, k) :: pairs) hall'
          hinv.closeBracket

/-- Bridge from the lockstep theorem to `parse_code`: the translation of a
source text panics exactly when the bracket scan of its filtered character
stream fails, and otherwise returns `Ok` with the translation invariant
holding for the scan's matched pairs and leftover open brackets. -/
theorem parse_code_spec (code : String) :
    (bracketScan (code.toList.filter isInstrChar) = none →
      parse_code code = .panicked unmatchedEndMsg) ∧
    (∀ pairs' stack',
      bracketScan (code.toList.filter isInstrChar) = some (pairs', stack') →
      ∃ instrs', parse_code code = .ok instrs' ∧
        ParseInv (code.toList.filter isInstrChar).length instrs' stack'
          pairs') := by
  have hall : ∀ c ∈ code.toList.filter isInstrChar, isInstrChar c = true :=
    fun c hc => (List.mem_filter.1 hc).2
  have h := parseLoop_matchScan (code.toList.filter isInstrChar) 0 [] [] []
    hall ParseInv.init
  simpa [parse_code, bracketScan] using h

/-- C1: For every source text containing only balanced bracket pairs,
translation succeeds and, in the produced instruction sequence, every
matched loop-begin/loop-end pair `(i, j)` satisfies: the loop-end's jump
target equals `i + 1` and the loop-begin's resolved jump target equals
`j + 1`. -/
theorem balanced_translation_resolves_pairs (code : String)
    (h : BalancedB (code.toList.filter isInstrChar) = true) :
    (parse_code code).isOk = true ∧
    ∀ p ∈ matchedPairs (code.toList.filter isInstrChar),
      (parse_code code).instrs.get? p.2 = some (.End (p.1 + 1)) ∧
      (parse_code code).instrs.get? p.1 = some (.Begin (some (p.2 + 1))) := by
  rcases hb : bracketScan (code.toList.filter isInstrChar) with _ | ⟨pairs, stack⟩
  · rw [BalancedB, hb] at h
    cases h
  · cases stack with
    | cons s rest =>
      rw [BalancedB, hb] at h
      cases h
    | nil =>
      obtain ⟨instrs', hok, hinv⟩ := (parse_code_spec code).2 pairs [] hb
      rw [hok]
      refine ⟨rfl, ?_⟩
      intro p hp
      rw [matchedPairs, hb] at hp
      exact ⟨hinv.pairs_end p hp, hinv.pairs_begin p hp⟩

theorem balanced_translation_resolves_pairs_witness :
    BalancedB ("+[>[-]<]".toList.filter isInstrChar) = true ∧
    ((parse_code "+[>[-]<]").isOk = true ∧
    ∀ p ∈ matchedPairs ("+[>[-]<]".toList.filter isInstrChar),
      (parse_code "+[>[-]<]").instrs.get? p.2 = some (.End (p.1 + 1)) ∧
      (parse_code "+[>[-]<]").instrs.get? p.1 =
        some (.Begin (some (p.2 + 1)))) :=
  ⟨by decide, balanced_translation_resolves_pairs "+[>[-]<]" (by decide)⟩

/-- C2 counterexample: on the source `"]"` (a loop-end with empty
bracket-matching stack) the translation does not surface an error result to
the caller: it panics — a crash via `expect`, not the `Err` channel of the
declared `Result` return type. -/
theorem unmatched_end_is_panic_not_err :
    parse_code "]" = .panicked unmatchedEndMsg ∧
    (parse_code "]").isErrResult = false := by decide

/-- C2 as amended: for every source text containing a loop-end whose
bracket-matching stack is empty at that point (i.e. whose filtered stream
fails the bracket scan), translation aborts immediately at that symbol —
but with a panic carrying the message "Unmatched `]`, missing `[`", a
crash, not a descriptive error result returned to the caller (the `Err`
channel of the declared `Result` type is never used). -/
theorem unmatched_end_aborts_with_panic (code : String)
    (h : bracketScan (code.toList.filter isInstrChar) = none) :
    parse_code code = .panicked unmatchedEndMsg ∧
    (parse_code code).isErrResult = false := by
  have h1 := (parse_code_spec code).1 h
  rw [h1]
  exact ⟨rfl, rfl⟩

theorem unmatched_end_aborts_with_panic_witness :
    bracketScan ("]++".toList.filter isInstrChar) = none ∧
    (parse_code "]++" = .panicked unmatchedEndMsg ∧
      (parse_code "]++").isErrResult = false) :=
  ⟨by decide, unmatched_end_aborts_with_panic "]++" (by decide)⟩

/-- C3 counterexample: on the source `"["` (a loop-begin never closed) the
translation does not fail: it returns `Ok` with the loop-begin's jump
target still absent.  The Rust loop never inspects the bracket stack at end
of input. -/
theorem unclosed_begin_translation_succeeds :
    parse_code "[" = .ok [.Begin none] ∧
    (parse_code "[").isOk = true := by decide

/-- C3 as amended: for every source text whose filtered stream leaves at
least one loop-begin unclosed (and has no premature loop-end), the
bracket-matching stack is indeed non-empty at end of input — but
translation does not fail: it returns a successful instruction sequence in
which every unclosed loop-begin (every position left on the stack) still
carries an absent (`none`) jump target.  No "unmatched loop-begin"
condition exists in the code. -/
theorem unclosed_begin_returns_ok (code : String)
    (pairs : List (Nat × Nat)) (b : Nat) (rest : List Nat)
    (h : bracketScan (code.toList.filter isInstrChar) =
      some (pairs, b :: rest)) :
    (parse_code code).isOk = true ∧
    ∀ s ∈ b :: rest,
      (parse_code code).instrs.get? s = some (.Begin none) := by
  obtain ⟨instrs', hok, hinv⟩ := (parse_code_spec code).2 pairs (b :: rest) h
  rw [hok]
  exact ⟨rfl, fun s hs => hinv.stack_begin s hs⟩

theorem unclosed_begin_returns_ok_witness :
    bracketScan ("[[".toList.filter isInstrChar) = some ([], [1, 0]) ∧
    ((parse_code "[[").isOk = true ∧
      ∀ s ∈ [1, 0],
        (parse_code "[[").instrs.get? s = some (.Begin none)) :=
  ⟨by decide, unclosed_begin_returns_ok "[[" [] 1 [0] (by decide)⟩

/-- C10: for every source text with balanced brackets, no loop-begin
instruction in the halt-terminated translated program carries an absent
(`none`) jump target, and consequently the executor's dispatch of a
loop-begin over a zero cell always takes the resolved jump — the
`jump_address.unwrap()` panic branch is unreachable under that
precondition. -/
theorem balanced_no_begin_none (code : String) (prog : List Instruction)
    (h : BalancedB (code.toList.filter isInstrChar) = true)
    (hc : compiled_program code = some prog) :
    (∀ i t, prog.get? i = some (.Begin t) → ∃ j, t = some j) ∧
    (∀ pc t fuel it input console, prog.get? pc = some (.Begin t) →
      it.pointer < TAPE_SIZE → it.buffer it.pointer = 0 →
      ∃ j, t = some j ∧
        execLoop prog (fuel + 1) pc it input console =
          execLoop prog fuel j it input console) := by
  rcases hb : bracketScan (code.toList.filter isInstrChar) with _ | ⟨pairs, stack⟩
  · rw [BalancedB, hb] at h
    cases h
  · cases stack with
    | cons s rest =>
      rw [BalancedB, hb] at h
      cases h
    | nil =>
      obtain ⟨instrs', hok, hinv⟩ := (parse_code_spec code).2 pairs [] hb
      rw [compiled_program, hok] at hc
      have hprog : prog = instrs' ++ [.Halt] := (Option.some.inj hc).symm
      subst hprog
      have hnone : ∀ i t, (instrs' ++ [Instruction.Halt]).get? i =
          some (.Begin t) → ∃ j, t = some j := by
        intro i t hget
        rcases Nat.lt_trichotomy i instrs'.length with hlt | heq | hgt
        · rw [List.get?_append hlt] at hget
          rcases hinv.begin_inv i t hget with ⟨hmem, _⟩ | ⟨j, _, ht⟩
          · cases hmem
          · exact ⟨j + 1, ht⟩
        · subst heq
          rw [List.get?_concat_length] at hget
          exact Instruction.noConfusion (Option.some.inj hget)
        · have hn : (instrs' ++ [Instruction.Halt]).get? i = none := by
            rw [List.get?_eq_none]
            simp only [List.length_append, List.length_cons, List.length_nil]
            omega
          rw [hn] at hget
          cases hget
      refine ⟨hnone, ?_⟩
      intro pc t fuel it input console hget hp hz
      obtain ⟨j, ht⟩ := hnone pc t hget
      subst ht
      refine ⟨j, rfl, ?_⟩
      simp only [execLoop, hget]
      rw [if_pos hp, if_pos hz]

theorem balanced_no_begin_none_witness :
    BalancedB ("[.]".toList.filter isInstrChar) = true ∧
    compiled_program "[.]" =
      some [.Begin (some 3), .OutputValue, .End 1, .Halt] ∧
    ((∀ i t, [Instruction.Begin (some 3), .OutputValue, .End 1,
        .Halt].get? i = some (.Begin t) → ∃ j, t = some j) ∧
     (∀ pc t fuel it input console,
        [Instruction.Begin (some 3), .OutputValue, .End 1,
          .Halt].get? pc = some (.Begin t) →
        it.pointer < TAPE_SIZE → it.buffer it.pointer = 0 →
        ∃ j, t = some j ∧
          execLoop [Instruction.Begin (some 3), .OutputValue, .End 1, .Halt]
              (fuel + 1) pc it input console =
            execLoop [Instruction.Begin (some 3), .OutputValue, .End 1,
              .Halt] fuel j it input console)) :=
  ⟨by decide, by decide,
    balanced_no_begin_none "[.]" _ (by decide) (by decide)⟩


/-- C4 counterexample: dispatching move-pointer-forward with the cursor at
the tape's last valid index `TAPE_SIZE - 1` does not fail: no
bounds-overflow condition is raised (the console stays empty), the run ends
at `Halt` and the cursor has been incremented to `TAPE_SIZE` — one past the
last valid index.  The guard is `pointer >= TAPE_SIZE`, not
`pointer >= TAPE_SIZE - 1`. -/
theorem move_forward_at_last_index_no_failure :
    (execute_code [.IncrementPointer, .Halt] (zeroTapeAt (TAPE_SIZE - 1))
      [] 2).isReturned = true ∧
    (execute_code [.IncrementPointer, .Halt] (zeroTapeAt (TAPE_SIZE - 1))
      [] 2).console = [] ∧
    (execute_code [.IncrementPointer, .Halt] (zeroTapeAt (TAPE_SIZE - 1))
      [] 2).pointerAfter = some TAPE_SIZE := by decide

/-- C4 as amended: dispatching move-pointer-forward fails with the
bounds-overflow condition (the printed message, followed by an immediate
return) exactly when the cursor is already at `TAPE_SIZE` or beyond — not
at the last valid index `TAPE_SIZE - 1`; in every other case, including at
`TAPE_SIZE - 1`, the cursor and the program counter are each incremented by
one. -/
theorem move_forward_dispatch (instrs : List Instruction) (pc : Nat)
    (it : Intepreter) (input : List Nat) (console : List Char) (fuel : Nat)
    (hfetch : instrs.get? pc = some .IncrementPointer) :
    (TAPE_SIZE ≤ it.pointer →
      execLoop instrs (fuel + 1) pc it input console =
        .returned it input (console ++ printlnStr overflowMsg)) ∧
    (it.pointer < TAPE_SIZE →
      execLoop instrs (fuel + 1) pc it input console =
        execLoop instrs fuel (pc + 1) { it with pointer := it.pointer + 1 }
          input console) := by
  constructor
  · intro h
    simp only [execLoop, hfetch]
    rw [if_pos h]
  · intro h
    simp only [execLoop, hfetch]
    rw [if_neg (by omega)]

theorem move_forward_dispatch_witness :
    ([Instruction.IncrementPointer, .Halt].get? 0 =
      some .IncrementPointer) ∧
    (execLoop [.IncrementPointer, .Halt] 1 0 (zeroTapeAt TAPE_SIZE) [] [] =
      .returned (zeroTapeAt TAPE_SIZE) [] ([] ++ printlnStr overflowMsg)) ∧
    (execLoop [.IncrementPointer, .Halt] 1 0 (zeroTapeAt (TAPE_SIZE - 1))
        [] [] =
      execLoop [.IncrementPointer, .Halt] 0 1
        (zeroTapeAt (TAPE_SIZE - 1 + 1)) [] []) :=
  ⟨rfl,
    (move_forward_dispatch [.IncrementPointer, .Halt] 0
      (zeroTapeAt TAPE_SIZE) [] [] 0 rfl).1 (by decide),
    (move_forward_dispatch [.IncrementPointer, .Halt] 0
      (zeroTapeAt (TAPE_SIZE - 1)) [] [] 0 rfl).2 (by decide)⟩

/-- C5 counterexample: the caller-visible result of `execute_code` does not
distinguish the execution errors from a normal halt, nor surface them as
error values.  A normal halt, a pointer-overflow stop and a
pointer-underflow stop all make the function return the same unit value
(`isReturned`; the bounds messages are merely printed to the console), and
an input-cell with exhausted input is a panic — a crash, not a reported
error value. -/
theorem exec_errors_not_result_values :
    (execute_code [.Halt] Intepreter.default [] 1).isReturned = true ∧
    (execute_code [.IncrementPointer, .Halt] (zeroTapeAt TAPE_SIZE)
      [] 1).isReturned = true ∧
    (execute_code [.DecrementPointer, .Halt] (zeroTapeAt 0)
      [] 1).isReturned = true ∧
    (execute_code [.InputValue, .Halt] Intepreter.default [] 1).panicMsg =
      some inputErrMsg := by decide

/-- C5 as amended: each execution error does stop execution immediately,
but none is reported as a distinguishable result value: pointer-overflow
and pointer-underflow only print their message to the console and then
return — the same unit return as a normal halt — and input-exhausted
panics (crashes) with "Input error". -/
theorem exec_error_reporting_channels (instrs : List Instruction) (pc : Nat)
    (it : Intepreter) (input : List Nat) (console : List Char)
    (fuel : Nat) :
    (instrs.get? pc = some .IncrementPointer → TAPE_SIZE ≤ it.pointer →
      execLoop instrs (fuel + 1) pc it input console =
        .returned it input (console ++ printlnStr overflowMsg)) ∧
    (instrs.get? pc = some .DecrementPointer → it.pointer = 0 →
      execLoop instrs (fuel + 1) pc it input console =
        .returned it input (console ++ printlnStr underflowMsg)) ∧
    (instrs.get? pc = some .InputValue → input = [] →
      execLoop instrs (fuel + 1) pc it input console =
        .panicked inputErrMsg [] console) := by
  refine ⟨?_, ?_, ?_⟩
  · intro hfetch h
    simp only [execLoop, hfetch]
    rw [if_pos h]
  · intro hfetch h
    simp only [execLoop, hfetch]
    rw [if_pos (by omega)]
  · intro hfetch h
    subst h
    simp only [execLoop, hfetch]

theorem exec_error_reporting_channels_witness :
    (execLoop [.IncrementPointer] 1 0 (zeroTapeAt TAPE_SIZE) [] [] =
      .returned (zeroTapeAt TAPE_SIZE) [] ([] ++ printlnStr overflowMsg)) ∧
    (execLoop [.DecrementPointer] 1 0 (zeroTapeAt 0) [] [] =
      .returned (zeroTapeAt 0) [] ([] ++ printlnStr underflowMsg)) ∧
    (execLoop [.InputValue] 1 0 Intepreter.default [] [] =
      .panicked inputErrMsg [] []) :=
  ⟨(exec_error_reporting_channels [.IncrementPointer] 0
      (zeroTapeAt TAPE_SIZE) [] [] 0).1 rfl (by decide),
   (exec_error_reporting_channels [.DecrementPointer] 0 (zeroTapeAt 0)
      [] [] 0).2.1 rfl rfl,
   (exec_error_reporting_channels [.InputValue] 0
      Intepreter.default [] [] 0).2.2 rfl rfl⟩

/-- C6: after an input-cell instruction reads one byte and stores it at the
cursor position, `instruction_index` is not advanced — the continuation
state passed to the next loop iteration carries the same program counter
`pc`, so the very same input-cell instruction is fetched again. -/
theorem input_value_keeps_pc (instrs : List Instruction) (pc : Nat)
    (it : Intepreter) (b : Nat) (rest : List Nat) (console : List Char)
    (fuel : Nat) (hfetch : instrs.get? pc = some .InputValue)
    (hp : it.pointer < TAPE_SIZE) :
    execLoop instrs (fuel + 1) pc it (b :: rest) console =
      execLoop instrs fuel pc
        (⟨writeBuf it.buffer it.pointer (b % 256), it.pointer⟩ : Intepreter)
        rest console := by
  simp only [execLoop, hfetch]
  rw [if_pos hp]

theorem input_value_keeps_pc_witness :
    execLoop [.InputValue, .Halt] 3 0 Intepreter.default (65 :: []) [] =
      execLoop [.InputValue, .Halt] 2 0
        (⟨writeBuf Intepreter.default.buffer Intepreter.default.pointer
          (65 % 256), Intepreter.default.pointer⟩ : Intepreter) [] [] :=
  input_value_keeps_pc [.InputValue, .Halt] 0 Intepreter.default 65 [] [] 2
    rfl (by decide)

/-- C7: cell arithmetic wraps modulo 256: dispatching increment-cell on a
cell holding 255 yields 0, and dispatching decrement-cell on a cell holding
0 yields 255; in both cases no error or panic occurs, only the cell at the
cursor changes, the cursor stays put, and the program counter advances by
one. -/
theorem cell_arithmetic_wraps_mod256 (instrs : List Instruction) (pc : Nat)
    (it : Intepreter) (input : List Nat) (console : List Char) (fuel : Nat)
    (hp : it.pointer < TAPE_SIZE) :
    (instrs.get? pc = some .IncrementValue → it.buffer it.pointer = 255 →
      ∃ it', execLoop instrs (fuel + 1) pc it input console =
          execLoop instrs fuel (pc + 1) it' input console ∧
        it'.pointer = it.pointer ∧ it'.buffer it.pointer = 0 ∧
        ∀ j, j ≠ it.pointer → it'.buffer j = it.buffer j) ∧
    (instrs.get? pc = some .DecrementValue → it.buffer it.pointer = 0 →
      ∃ it', execLoop instrs (fuel + 1) pc it input console =
          execLoop instrs fuel (pc + 1) it' input console ∧
        it'.pointer = it.pointer ∧ it'.buffer it.pointer = 255 ∧
        ∀ j, j ≠ it.pointer → it'.buffer j = it.buffer j) := by
  constructor
  · intro hfetch hv
    refine ⟨⟨writeBuf it.buffer it.pointer
      ((it.buffer it.pointer + 1) % 256), it.pointer⟩, ?_, rfl, ?_, ?_⟩
    · simp only [execLoop, hfetch]
      rw [if_pos hp]
    · simp [writeBuf, hv]
    · intro j hj
      simp [writeBuf, hj]
  · intro hfetch hv
    refine ⟨⟨writeBuf it.buffer it.pointer
      ((it.buffer it.pointer + 255) % 256), it.pointer⟩, ?_, rfl, ?_, ?_⟩
    · simp only [execLoop, hfetch]
      rw [if_pos hp]
    · simp [writeBuf, hv]
    · intro j hj
      simp [writeBuf, hj]

theorem cell_arithmetic_wraps_mod256_witness :
    ((fullTapeAt 5).pointer < TAPE_SIZE) ∧
    (∃ it', execLoop [.IncrementValue, .Halt] 1 0 (fullTapeAt 5) [] [] =
        execLoop [.IncrementValue, .Halt] 0 1 it' [] [] ∧
      it'.pointer = (fullTapeAt 5).pointer ∧
      it'.buffer (fullTapeAt 5).pointer = 0 ∧
      ∀ j, j ≠ (fullTapeAt 5).pointer →
        it'.buffer j = (fullTapeAt 5).buffer j) ∧
    (∃ it', execLoop [.DecrementValue, .Halt] 1 0 (zeroTapeAt 5) [] [] =
        execLoop [.DecrementValue, .Halt] 0 1 it' [] [] ∧
      it'.pointer = (zeroTapeAt 5).pointer ∧
      it'.buffer (zeroTapeAt 5).pointer = 255 ∧
      ∀ j, j ≠ (zeroTapeAt 5).pointer →
        it'.buffer j = (zeroTapeAt 5).buffer j) :=
  ⟨by decide,
   (cell_arithmetic_wraps_mod256 [.IncrementValue, .Halt] 0 (fullTapeAt 5)
      [] [] 0 (by decide)).1 rfl rfl,
   (cell_arithmetic_wraps_mod256 [.DecrementValue, .Halt] 0 (zeroTapeAt 5)
      [] [] 0 (by decide)).2 rfl rfl⟩

/-- Inserting only non-instruction characters leaves the filtered stream —
the input of the translation loop — unchanged. -/
theorem filter_insertNoise (ns : List (List Char)) (cs : List Char)
    (hns : ∀ n ∈ ns, ∀ x ∈ n, isInstrChar x = false) :
    (insertNoise ns cs).filter isInstrChar = cs.filter isInstrChar := by
  induction ns generalizing cs with
  | nil => rfl
  | cons n ns ih =>
    have hn : n.filter isInstrChar = [] :=
      List.filter_eq_nil.2
        (fun a ha => by simp [hns n (List.mem_cons_self _ _) a ha])
    have hns' : ∀ m ∈ ns, ∀ x ∈ m, isInstrChar x = false :=
      fun m hm => hns m (List.mem_cons_of_mem _ hm)
    cases cs with
    | nil =>
      have hjoin : ∀ x ∈ (n :: ns).join, isInstrChar x = false := by
        intro x hx
        rcases List.mem_join.1 hx with ⟨m, hm, hxm⟩
        exact hns m hm x hxm
      have : ((n :: ns).join).filter isInstrChar = [] :=
        List.filter_eq_nil.2 (fun a ha => by simp [hjoin a ha])
      simpa [insertNoise] using this
    | cons c cs =>
      simp only [insertNoise, List.filter_append, hn, List.nil_append,
        List.filter_cons]
      rw [ih cs hns']

/-- C8: non-instruction characters are fully transparent.  For every source
text and every choice of noise blocks made of characters outside the eight
recognized symbols, inserting those blocks at arbitrary positions yields a
translation with identical instructions and identical resolved jump targets
— the very same `ParseResult` — hence an identical halt-terminated program
and identical executed behavior on every interpreter state, input and
fuel. -/
theorem noise_chars_transparent (code : String) (ns : List (List Char))
    (hns : ∀ n ∈ ns, ∀ x ∈ n, isInstrChar x = false) :
    parse_code ⟨insertNoise ns code.toList⟩ = parse_code code ∧
    compiled_program ⟨insertNoise ns code.toList⟩ = compiled_program code ∧
    ∀ it input fuel,
      runProgram ⟨insertNoise ns code.toList⟩ it input fuel =
        runProgram code it input fuel := by
  have hf : (String.mk (insertNoise ns code.toList)).toList.filter
      isInstrChar = code.toList.filter isInstrChar :=
    filter_insertNoise ns code.toList hns
  have hp : parse_code ⟨insertNoise ns code.toList⟩ = parse_code code := by
    unfold parse_code
    rw [hf]
  have hcp : compiled_program ⟨insertNoise ns code.toList⟩ =
      compiled_program code := by
    unfold compiled_program
    rw [hp]
  exact ⟨hp, hcp, fun it input fuel => by unfold runProgram; rw [hcp]⟩

theorem noise_chars_transparent_witness :
    (∀ n ∈ [['h', 'i'], [' '], ['!', '?']],
      ∀ x ∈ n, isInstrChar x = false) ∧
    (parse_code ⟨insertNoise [['h', 'i'], [' '], ['!', '?']]
        "+[-]".toList⟩ = parse_code "+[-]" ∧
     compiled_program ⟨insertNoise [['h', 'i'], [' '], ['!', '?']]
        "+[-]".toList⟩ = compiled_program "+[-]" ∧
     ∀ it input fuel,
       runProgram ⟨insertNoise [['h', 'i'], [' '], ['!', '?']]
          "+[-]".toList⟩ it input fuel =
         runProgram "+[-]" it input fuel) :=
  ⟨by decide,
    noise_chars_transparent "+[-]" [['h', 'i'], [' '], ['!', '?']]
      (by decide)⟩

/-- C9: the addition-loop scenario.  The interpreter's fresh tape is
all-zero with the cursor at `TAPE_SIZE / 2` — in particular at least 3
cells lie to the right of (and including) the cursor and the cursor can
move left.  Running the translated, halt-terminated program
`"++>+++++[<+>-]<."` on it terminates by reaching `Halt` (a normal return
with nothing printed but the program's own output), leaves the leftmost
touched cell (the starting cell, `TAPE_SIZE / 2`) holding 7, returns the
cursor there, and emits exactly the single byte 7 on the output stream. -/
theorem addition_loop_scenario :
    Intepreter.default.pointer = TAPE_SIZE / 2 ∧
    (∀ i, Intepreter.default.buffer i = 0) ∧
    0 < Intepreter.default.pointer ∧
    Intepreter.default.pointer + 2 < TAPE_SIZE ∧
    (runProgram "++>+++++[<+>-]<." Intepreter.default [] 200).map
      ExecRes.isReturned = some true ∧
    (runProgram "++>+++++[<+>-]<." Intepreter.default [] 200).map
      ExecRes.console = some [Char.ofNat 7] ∧
    (runProgram "++>+++++[<+>-]<." Intepreter.default [] 200).map
      (ExecRes.cellAt (TAPE_SIZE / 2)) = some (some 7) ∧
    (runProgram "++>+++++[<+>-]<." Intepreter.default [] 200).map
      ExecRes.pointerAfter = some (some (TAPE_SIZE / 2)) :=
  ⟨rfl, fun _ => rfl, by decide, by decide, by decide, by decide, by decide,
    by decide⟩
